import Mathlib

/-!
Verification of the TBD (text dylib) parser `macho/tapi.cc`.

The embedding mirrors the C++ source:
* `YamlNode` is the tagged union scalar / sequence / mapping produced by the
  external YAML parser (`mold.h`); mapping keys are unique, so association-list
  lookup models `std::map::find`.
* `get_vector`, `get_string_vector`, `get_string`, `contains` are the node
  query helpers.
* `TextDylib` is the descriptor record; `to_tbd` is the per-document
  extraction; `buildMap`/`handleReexportedLibs`/`squash` model the merge step.
  The C++ walk has no termination guard, so it is embedded with an explicit
  fuel parameter counting the remaining allowed recursion depth; `none` means
  the recursion depth exceeded the fuel (i.e. the C++ walk would still be
  recursing at that depth).
* `parseTbd` is the file-level driver; the external YAML parser's output is
  passed in as an argument (`Except YamlError (List YamlNode)`), since the
  parser itself is an external collaborator.  `Fatal` diagnostics are modelled
  by the `ParseOutcome.fatal` constructor carrying the message text.
-/

namespace Tapi

/-- A YAML node: string scalar, sequence, or mapping (`YamlNode` in `mold.h`).
Mapping keys are unique within a mapping, as in `std::map`. -/
inductive YamlNode where
  | str : String → YamlNode
  | seq : List YamlNode → YamlNode
  | map : List (String × YamlNode) → YamlNode

/-- `get_vector` from `tapi.cc`: the sequence value of `key` in a mapping
node, else empty. -/
def get_vector (node : YamlNode) (key : String) : List YamlNode :=
  match node with
  | .map m =>
    match m.lookup key with
    | some (.seq v) => v
    | _ => []
  | _ => []

/-- `get_string_vector` from `tapi.cc`: the scalar members of
`get_vector node key`, non-scalars skipped. -/
def get_string_vector (node : YamlNode) (key : String) : List String :=
  (get_vector node key).filterMap fun mem =>
    match mem with
    | .str s => some s
    | _ => none

/-- `get_string` from `tapi.cc`: the scalar value of `key`, else none. -/
def get_string (node : YamlNode) (key : String) : Option String :=
  match node with
  | .map m =>
    match m.lookup key with
    | some (.str s) => some s
    | _ => none
  | _ => none

/-- `contains` from `tapi.cc`: true iff some member of `vec` is a scalar
equal to `key`. -/
def contains (vec : List YamlNode) (key : String) : Bool :=
  vec.any fun mem =>
    match mem with
    | .str s => s == key
    | _ => false

/-- The `TextDylib` descriptor record (declared in `mold.h`, filled in
`tapi.cc`).  `install_name` defaults to the empty string, like the
default-constructed `std::string_view`. -/
structure TextDylib where
  install_name : String := ""
  exports : List String := []
  weak_exports : List String := []
  reexported_libs : List String := []
deriving Repr, DecidableEq

/-- The body of the loop over `exports`/`reexports` members in `to_tbd`:
if the member's `targets` contains `arch`, append its `symbols` to
`exports`, its `weak-symbols` to `weak_exports`, and push the derived
Objective-C runtime names. -/
def processMember (arch : String) (tbd : TextDylib) (mem : YamlNode) : TextDylib :=
  if contains (get_vector mem "targets") arch then
    let tbd := { tbd with exports := tbd.exports ++ get_string_vector mem "symbols" }
    let tbd := { tbd with
      weak_exports := tbd.weak_exports ++ get_string_vector mem "weak-symbols" }
    let tbd := (get_string_vector mem "objc-classes").foldl (fun tbd s =>
      { tbd with exports :=
          tbd.exports ++ ["_OBJC_CLASS_$_" ++ s, "_OBJC_METACLASS_$_" ++ s] }) tbd
    let tbd := (get_string_vector mem "objc-eh-types").foldl (fun tbd s =>
      { tbd with exports := tbd.exports ++ ["_OBJC_EHTYPE_$_" ++ s] }) tbd
    (get_string_vector mem "objc-ivars").foldl (fun tbd s =>
      { tbd with exports := tbd.exports ++ ["_OBJC_IVAR_$_" ++ s] }) tbd
  else tbd

/-- `to_tbd` from `tapi.cc`: extract one descriptor from one document node,
or nothing when the document's `targets` does not contain `arch`. -/
def to_tbd (node : YamlNode) (arch : String) : Option TextDylib :=
  if contains (get_vector node "targets") arch then
    let tbd : TextDylib := {}
    let tbd :=
      match get_string node "install-name" with
      | some v => { tbd with install_name := v }
      | none => tbd
    let tbd := (get_vector node "reexported-libraries").foldl (fun tbd mem =>
      if contains (get_vector mem "targets") arch then
        { tbd with reexported_libs :=
            tbd.reexported_libs ++ get_string_vector mem "libraries" }
      else tbd) tbd
    let tbd := (["exports", "reexports"] : List String).foldl (fun tbd key =>
      (get_vector node key).foldl (processMember arch) tbd) tbd
    some tbd
  else none

/-- The lookup table of `squash`: the non-primary descriptors indexed by
`install_name`, last write wins (`map[tbd.install_name] = std::move(tbd)`). -/
def buildMap (tbds : List TextDylib) : String → Option TextDylib :=
  tbds.foldl (fun m t => fun s => if s = t.install_name then some t else m s)
    (fun _ => none)

/-- The recursive lambda `handle_reexported_libs` of `squash`.  State:
`main` (whose `exports`/`weak_exports` are appended to) and `ext`
(the `external_libs` accumulator).  `fuel` bounds the recursion depth,
which the C++ code leaves unbounded; `none` models exceeding it. -/
def handleReexportedLibs (map : String → Option TextDylib) :
    Nat → List String → TextDylib → List String → Option (TextDylib × List String)
  | _, [], main, ext => some (main, ext)
  | fuel, lib :: libs, main, ext =>
    match map lib with
    | some child =>
      match fuel with
      | 0 => none
      | Nat.succ n =>
        match handleReexportedLibs map n child.reexported_libs
            { main with exports := main.exports ++ child.exports,
                        weak_exports := main.weak_exports ++ child.weak_exports }
            ext with
        | some (main', ext') => handleReexportedLibs map (Nat.succ n) libs main' ext'
        | none => none
    | none => handleReexportedLibs map fuel libs main (ext ++ [lib])
termination_by fuel libs _ _ => (fuel, libs)

/-- `squash` from `tapi.cc`: take the first descriptor as `main`, index the
rest by install name, walk `main.reexported_libs`, and replace
`main.reexported_libs` with the unresolved externals.  The C++ function
reads `tbds[0]` unguarded; on the empty list that access is out of bounds,
modelled here by `none`. -/
def squash (tbds : List TextDylib) (fuel : Nat) : Option TextDylib :=
  match tbds with
  | [] => none
  | main :: rest =>
    match handleReexportedLibs (buildMap rest) fuel main.reexported_libs main [] with
    | some (main', ext) => some { main' with reexported_libs := ext }
    | none => none

/-- The extraction loop of `parse`: run `to_tbd` over every document,
keeping only the documents that yielded a descriptor. -/
def extractDylibs (nodes : List YamlNode) (arch : String) : List TextDylib :=
  nodes.filterMap fun node => to_tbd node arch

/-- A structural YAML parse error (`YamlError` in `mold.h`): byte offset
and message. -/
structure YamlError where
  pos : Nat
  msg : String
deriving Repr, DecidableEq

/-- `std::count(contents.begin(), contents.begin() + pos, '\n')`: the number
of newline bytes strictly before offset `pos`. -/
def countNewlines (contents : String) (pos : Nat) : Nat :=
  ((contents.data.take pos).filter fun c => c == '\n').length

/-- Outcome of the file-level driver: a fatal diagnostic with its message,
a returned descriptor, or `stuck` — the driver reached behaviour with no
defined result (out-of-bounds `tbds[0]` on an empty list, or the unguarded
walk still recursing past the modelled depth). -/
inductive ParseOutcome where
  | fatal : String → ParseOutcome
  | ok : TextDylib → ParseOutcome
  | stuck : ParseOutcome
deriving Repr, DecidableEq

/-- `parse` from `tapi.cc`.  The external YAML parser's result on
`contents` is supplied as `res`; `name` is the mapped file's display name. -/
def parseTbd (name contents : String) (res : Except YamlError (List YamlNode))
    (arch : String) (fuel : Nat) : ParseOutcome :=
  match res with
  | .error err =>
    .fatal (name ++ ":" ++ toString (countNewlines contents err.pos + 1)
            ++ ": YAML parse error: " ++ err.msg)
  | .ok nodes =>
    if nodes.isEmpty then
      .fatal (name ++ ": malformed TBD file")
    else
      match squash (extractDylibs nodes arch) fuel with
      | some tbd => .ok tbd
      | none => .stuck

/-- Running extraction plus merge on one parsed file: the deterministic part
of the pipeline after the external YAML parser. -/
def runPipeline (nodes : List YamlNode) (arch : String) (fuel : Nat) :
    Option TextDylib :=
  squash (extractDylibs nodes arch) fuel

/-- `t` is reachable from the name list `libs` through a chain of
re-exports, each link resolved by the lookup table `map`: either `t` is a
resolvable member of `libs`, or `t` is a resolvable member of the
`reexported_libs` of a descriptor already reached. -/
inductive Reachable (map : String → Option TextDylib) :
    List String → String → Prop where
  | head {libs : List String} {lib : String} (hmem : lib ∈ libs)
      (hres : map lib ≠ none) : Reachable map libs lib
  | step {libs : List String} {lib t : String} {c : TextDylib}
      (hr : Reachable map libs lib) (hc : map lib = some c)
      (hmem : t ∈ c.reexported_libs) (hres : map t ≠ none) :
      Reachable map libs t

/-- Acyclicity witness for the same-file re-export reference graph: a rank
function that strictly decreases along every resolved re-export edge.  A
finite graph admits such a rank exactly when it has no cycle among
resolvable names. -/
def RankedBelow (map : String → Option TextDylib) (rk : String → Nat) : Prop :=
  ∀ s c, map s = some c → ∀ t ∈ c.reexported_libs, map t ≠ none → rk t < rk s

/-- The name `l` is encountered by the re-export walk started on `libs`:
it is in `libs` itself, or in the re-export list of a resolved library the
walk reaches. -/
abbrev Encountered (map : String → Option TextDylib) (libs : List String)
    (l : String) : Prop :=
  l ∈ libs ∨ ∃ t c, Reachable map libs t ∧ map t = some c ∧ l ∈ c.reexported_libs

/-- Specification of the walk's external-library output, transcribed from
the spec's merge step wording rather than the source: depth-first over the
name list, a name present in the lookup table contributes the externals of
its descriptor's re-export list (recursion, before the remaining
siblings), a name absent from the table is recorded itself, unchanged, at
its encounter position, with no recursion into it.  `fuel` bounds the
recursion depth exactly as in the walk. -/
def externalsSpec (map : String → Option TextDylib) :
    Nat → List String → Option (List String)
  | _, [] => some []
  | fuel, lib :: libs =>
    match map lib with
    | some child =>
      match fuel with
      | 0 => none
      | Nat.succ n =>
        match externalsSpec map n child.reexported_libs with
        | some x1 =>
          match externalsSpec map (Nat.succ n) libs with
          | some x2 => some (x1 ++ x2)
          | none => none
        | none => none
    | none =>
      match externalsSpec map fuel libs with
      | some x => some (lib :: x)
      | none => none
termination_by fuel libs => (fuel, libs)

/-! ## Helper lemmas about the re-export walk -/

/-- The walk only extends its state: install name and the (not yet
replaced) `reexported_libs` field are untouched, `exports`,
`weak_exports` and the external-library accumulator only grow by
appending at the end. -/
theorem handle_extends (map : String → Option TextDylib) :
    ∀ (fuel : Nat) (libs : List String) (main : TextDylib) (ext : List String)
      (main' : TextDylib) (ext' : List String),
      handleReexportedLibs map fuel libs main ext = some (main', ext') →
      main'.install_name = main.install_name ∧
      main'.reexported_libs = main.reexported_libs ∧
      (∃ a, main'.exports = main.exports ++ a) ∧
      (∃ b, main'.weak_exports = main.weak_exports ++ b) ∧
      (∃ c, ext' = ext ++ c) := by
  intro fuel libs main ext
  induction fuel, libs, main, ext using handleReexportedLibs.induct map with
  | case1 fuel main ext =>
    intro main' ext' h
    simp only [handleReexportedLibs, Option.some.injEq, Prod.mk.injEq] at h
    obtain ⟨h1, h2⟩ := h
    subst h1; subst h2
    exact ⟨rfl, rfl, ⟨[], by simp⟩, ⟨[], by simp⟩, ⟨[], by simp⟩⟩
  | case2 lib libs main ext child hmap =>
    intro main' ext' h
    simp only [handleReexportedLibs, hmap] at h
    exact Option.noConfusion h
  | case3 lib libs main ext child hmap n mid emid hchild IHchild IHsib =>
    intro main' ext' h
    simp only [handleReexportedLibs, hmap, hchild] at h
    obtain ⟨i1, r1, ⟨a1, e1⟩, ⟨b1, w1⟩, ⟨c1, x1⟩⟩ := IHchild mid emid hchild
    obtain ⟨i2, r2, ⟨a2, e2⟩, ⟨b2, w2⟩, ⟨c2, x2⟩⟩ := IHsib main' ext' h
    refine ⟨i2.trans i1, r2.trans r1, ⟨child.exports ++ a1 ++ a2, ?_⟩,
      ⟨child.weak_exports ++ b1 ++ b2, ?_⟩, ⟨c1 ++ c2, ?_⟩⟩
    · rw [e2, e1]; simp
    · rw [w2, w1]; simp
    · rw [x2, x1]; simp
  | case4 lib libs main ext child hmap n hchild IHchild =>
    intro main' ext' h
    simp only [handleReexportedLibs, hmap, hchild] at h
    exact Option.noConfusion h
  | case5 fuel lib libs main ext hmap IH =>
    intro main' ext' h
    simp only [handleReexportedLibs, hmap] at h
    obtain ⟨i1, r1, ⟨a1, e1⟩, ⟨b1, w1⟩, ⟨c1, x1⟩⟩ := IH main' ext' h
    exact ⟨i1, r1, ⟨a1, e1⟩, ⟨b1, w1⟩, ⟨[lib] ++ c1, by rw [x1]; simp⟩⟩

/-- Every name in the final external-library accumulator was already there
initially or is unresolved in the lookup table. -/
theorem handle_ext_mem (map : String → Option TextDylib) :
    ∀ (fuel : Nat) (libs : List String) (main : TextDylib) (ext : List String)
      (main' : TextDylib) (ext' : List String),
      handleReexportedLibs map fuel libs main ext = some (main', ext') →
      ∀ l ∈ ext', l ∈ ext ∨ map l = none := by
  intro fuel libs main ext
  induction fuel, libs, main, ext using handleReexportedLibs.induct map with
  | case1 fuel main ext =>
    intro main' ext' h l hl
    simp only [handleReexportedLibs, Option.some.injEq, Prod.mk.injEq] at h
    obtain ⟨h1, h2⟩ := h
    subst h2
    exact Or.inl hl
  | case2 lib libs main ext child hmap =>
    intro main' ext' h
    simp only [handleReexportedLibs, hmap] at h
    exact Option.noConfusion h
  | case3 lib libs main ext child hmap n mid emid hchild IHchild IHsib =>
    intro main' ext' h l hl
    simp only [handleReexportedLibs, hmap, hchild] at h
    rcases IHsib main' ext' h l hl with h1 | h1
    · exact IHchild mid emid hchild l h1
    · exact Or.inr h1
  | case4 lib libs main ext child hmap n hchild IHchild =>
    intro main' ext' h
    simp only [handleReexportedLibs, hmap, hchild] at h
    exact Option.noConfusion h
  | case5 fuel lib libs main ext hmap IH =>
    intro main' ext' h l hl
    simp only [handleReexportedLibs, hmap] at h
    rcases IH main' ext' h l hl with h1 | h1
    · rcases List.mem_append.mp h1 with h2 | h2
      · exact Or.inl h2
      · rw [List.mem_singleton.mp h2]
        exact Or.inr hmap
    · exact Or.inr h1

/-- Every unresolved name in the walked list ends up in the
external-library accumulator. -/
theorem handle_unresolved_mem (map : String → Option TextDylib) :
    ∀ (fuel : Nat) (libs : List String) (main : TextDylib) (ext : List String)
      (main' : TextDylib) (ext' : List String),
      handleReexportedLibs map fuel libs main ext = some (main', ext') →
      ∀ l ∈ libs, map l = none → l ∈ ext' := by
  intro fuel libs main ext
  induction fuel, libs, main, ext using handleReexportedLibs.induct map with
  | case1 fuel main ext =>
    intro main' ext' h l hl
    exact absurd hl (List.not_mem_nil _)
  | case2 lib libs main ext child hmap =>
    intro main' ext' h
    simp only [handleReexportedLibs, hmap] at h
    exact Option.noConfusion h
  | case3 lib libs main ext child hmap n mid emid hchild IHchild IHsib =>
    intro main' ext' h l hl hnone
    simp only [handleReexportedLibs, hmap, hchild] at h
    rcases List.mem_cons.mp hl with h1 | h1
    · subst h1
      rw [hmap] at hnone
      exact Option.noConfusion hnone
    · exact IHsib main' ext' h l h1 hnone
  | case4 lib libs main ext child hmap n hchild IHchild =>
    intro main' ext' h
    simp only [handleReexportedLibs, hmap, hchild] at h
    exact Option.noConfusion h
  | case5 fuel lib libs main ext hmap IH =>
    intro main' ext' h l hl hnone
    simp only [handleReexportedLibs, hmap] at h
    rcases List.mem_cons.mp hl with h1 | h1
    · subst h1
      obtain ⟨-, -, -, -, c1, x1⟩ := handle_extends map _ _ _ _ _ _ h
      rw [x1]
      simp
    · exact IH main' ext' h l h1 hnone

/-- When every walked name is unresolved, the walk changes nothing and
appends the names, in order, to the accumulator. -/
theorem handle_all_unresolved (map : String → Option TextDylib) :
    ∀ (libs : List String) (fuel : Nat) (main : TextDylib) (ext : List String),
      (∀ l ∈ libs, map l = none) →
      handleReexportedLibs map fuel libs main ext = some (main, ext ++ libs) := by
  intro libs
  induction libs with
  | nil =>
    intro fuel main ext _
    simp [handleReexportedLibs]
  | cons lib libs IH =>
    intro fuel main ext h
    have hmap : map lib = none := h lib (List.mem_cons_self _ _)
    simp only [handleReexportedLibs, hmap]
    rw [IH fuel main (ext ++ [lib]) fun l hl => h l (List.mem_cons_of_mem _ hl)]
    simp

/-! ## Helper lemmas about reachability -/

/-- Reachability is monotone in the starting name list. -/
theorem reachable_mono (map : String → Option TextDylib) :
    ∀ (L L' : List String) (t : String), (∀ x ∈ L, x ∈ L') →
      Reachable map L t → Reachable map L' t := by
  intro L L' t hsub h
  induction h with
  | head hmem hres => exact .head (hsub _ hmem) hres
  | step hr hc hmem hres IH => exact .step IH hc hmem hres

/-- Every reachable name has a chain rooted at a single member of the
starting list. -/
theorem reachable_origin (map : String → Option TextDylib) :
    ∀ (L : List String) (t : String), Reachable map L t →
      ∃ l, l ∈ L ∧ map l ≠ none ∧ Reachable map [l] t := by
  intro L t h
  induction h with
  | head hmem hres =>
    exact ⟨_, hmem, hres, .head (List.mem_singleton_self _) hres⟩
  | step hr hc hmem hres IH =>
    obtain ⟨l, hl, hres_l, hr1⟩ := IH
    exact ⟨l, hl, hres_l, .step hr1 hc hmem hres⟩

/-- Nothing is reachable from the empty list. -/
theorem reachable_nil (map : String → Option TextDylib) (t : String) :
    ¬ Reachable map [] t := by
  intro h
  obtain ⟨l, hl, -, -⟩ := reachable_origin map [] t h
  exact List.not_mem_nil _ hl

/-- A chain rooted at a resolved name `l` either stops at `l` or continues
through the re-export list of the descriptor `l` resolves to. -/
theorem reachable_singleton_elim (map : String → Option TextDylib) :
    ∀ (L : List String) (t : String), Reachable map L t →
      ∀ (l : String) (c : TextDylib), L = [l] → map l = some c →
      t = l ∨ Reachable map c.reexported_libs t := by
  intro L t h
  induction h with
  | head hmem hres =>
    intro l c hL hc
    subst hL
    exact Or.inl (List.mem_singleton.mp hmem)
  | step hr hc' hmem hres IH =>
    intro l c hL hc
    subst hL
    rcases IH l c rfl hc with h1 | h1
    · subst h1
      rw [hc] at hc'
      injection hc' with hcc
      subst hcc
      exact Or.inr (.head hmem hres)
    · exact Or.inr (.step h1 hc' hmem hres)

/-- If the walk completes, the exports of every library reachable from the
walked list land in the accumulated main exports. -/
theorem handle_reachable_exports (map : String → Option TextDylib) :
    ∀ (fuel : Nat) (libs : List String) (main : TextDylib) (ext : List String)
      (main' : TextDylib) (ext' : List String),
      handleReexportedLibs map fuel libs main ext = some (main', ext') →
      ∀ (t : String) (c : TextDylib), Reachable map libs t → map t = some c →
      ∀ e ∈ c.exports, e ∈ main'.exports := by
  intro fuel libs main ext
  induction fuel, libs, main, ext using handleReexportedLibs.induct map with
  | case1 fuel main ext =>
    intro main' ext' h t c hr
    exact absurd hr (reachable_nil map t)
  | case2 lib libs main ext child hmap =>
    intro main' ext' h
    simp only [handleReexportedLibs, hmap] at h
    exact Option.noConfusion h
  | case3 lib libs main ext child hmap n mid emid hchild IHchild IHsib =>
    intro main' ext' h t c hr hc e he
    simp only [handleReexportedLibs, hmap, hchild] at h
    obtain ⟨l, hl, hres_l, hr1⟩ := reachable_origin map _ t hr
    rcases List.mem_cons.mp hl with h1 | h1
    · subst h1
      rcases reachable_singleton_elim map _ t hr1 l child rfl hmap with h2 | h2
      · subst h2
        rw [hmap] at hc
        injection hc with hcc
        subst hcc
        obtain ⟨-, -, ⟨a1, e1⟩, -, -⟩ := handle_extends map _ _ _ _ _ _ hchild
        obtain ⟨-, -, ⟨a2, e2⟩, -, -⟩ := handle_extends map _ _ _ _ _ _ h
        rw [e2, e1]
        simp [List.mem_append, he]
      · have hmid := IHchild mid emid hchild t c h2 hc e he
        obtain ⟨-, -, ⟨a2, e2⟩, -, -⟩ := handle_extends map _ _ _ _ _ _ h
        rw [e2]
        exact List.mem_append.mpr (Or.inl hmid)
    · exact IHsib main' ext' h t c
        (reachable_mono map [l] libs t (by simpa using h1) hr1) hc e he
  | case4 lib libs main ext child hmap n hchild IHchild =>
    intro main' ext' h
    simp only [handleReexportedLibs, hmap, hchild] at h
    exact Option.noConfusion h
  | case5 fuel lib libs main ext hmap IH =>
    intro main' ext' h t c hr hc e he
    simp only [handleReexportedLibs, hmap] at h
    obtain ⟨l, hl, hres_l, hr1⟩ := reachable_origin map _ t hr
    rcases List.mem_cons.mp hl with h1 | h1
    · subst h1
      exact absurd hmap hres_l
    · exact IH main' ext' h t c
        (reachable_mono map [l] libs t (by simpa using h1) hr1) hc e he

/-- With an acyclicity rank and fuel above the rank of every resolvable
walked name, the walk completes. -/
theorem handle_success (map : String → Option TextDylib) (rk : String → Nat)
    (hrk : RankedBelow map rk) :
    ∀ (fuel : Nat) (libs : List String),
      (∀ l ∈ libs, map l ≠ none → rk l < fuel) →
      ∀ (main : TextDylib) (ext : List String),
      ∃ out, handleReexportedLibs map fuel libs main ext = some out := by
  intro fuel
  induction fuel using Nat.strong_induction_on with
  | _ fuel IHf =>
    intro libs
    induction libs with
    | nil =>
      intro _ main ext
      exact ⟨(main, ext), by simp [handleReexportedLibs]⟩
    | cons lib libs IHl =>
      intro hb main ext
      cases hmap : map lib with
      | none =>
        obtain ⟨out, hout⟩ :=
          IHl (fun l hl h => hb l (List.mem_cons_of_mem _ hl) h) main (ext ++ [lib])
        exact ⟨out, by simp only [handleReexportedLibs, hmap]; exact hout⟩
      | some child =>
        have hlt : rk lib < fuel :=
          hb lib (List.mem_cons_self _ _) (by simp [hmap])
        obtain ⟨n, rfl⟩ : ∃ n, fuel = n + 1 := ⟨fuel - 1, by omega⟩
        have hbc : ∀ l ∈ child.reexported_libs, map l ≠ none → rk l < n := by
          intro l hl hres
          have := hrk lib child hmap l hl hres
          omega
        obtain ⟨⟨mid, emid⟩, hmid⟩ := IHf n (by omega) child.reexported_libs hbc
          { main with exports := main.exports ++ child.exports,
                      weak_exports := main.weak_exports ++ child.weak_exports } ext
        obtain ⟨out, hout⟩ :=
          IHl (fun l hl h => hb l (List.mem_cons_of_mem _ hl) h) mid emid
        refine ⟨out, ?_⟩
        simp only [handleReexportedLibs, hmap, hmid]
        exact hout

/-- One-step equation: the walk on an empty list returns the state. -/
theorem handle_nil (map : String → Option TextDylib) (fuel : Nat)
    (main : TextDylib) (ext : List String) :
    handleReexportedLibs map fuel [] main ext = some (main, ext) := by
  simp [handleReexportedLibs]

/-- One-step equation: a resolved head with no fuel left exceeds the
modelled recursion depth. -/
theorem handle_cons_some_zero (map : String → Option TextDylib)
    (lib : String) (libs : List String) (main : TextDylib) (ext : List String)
    (child : TextDylib) (hmap : map lib = some child) :
    handleReexportedLibs map 0 (lib :: libs) main ext = none := by
  simp only [handleReexportedLibs, hmap]

/-- One-step equation: a resolved head appends the child's symbols and
recurses into the child's re-export list before the siblings. -/
theorem handle_cons_some (map : String → Option TextDylib) (n : Nat)
    (lib : String) (libs : List String) (main : TextDylib) (ext : List String)
    (child : TextDylib) (hmap : map lib = some child) :
    handleReexportedLibs map (n + 1) (lib :: libs) main ext =
      match handleReexportedLibs map n child.reexported_libs
          { main with exports := main.exports ++ child.exports,
                      weak_exports := main.weak_exports ++ child.weak_exports }
          ext with
      | some (main', ext') => handleReexportedLibs map (n + 1) libs main' ext'
      | none => none := by
  simp only [handleReexportedLibs, hmap]

/-- One-step equation: an unresolved head is pushed onto the
external-library accumulator and not recursed into. -/
theorem handle_cons_none (map : String → Option TextDylib) (fuel : Nat)
    (lib : String) (libs : List String) (main : TextDylib) (ext : List String)
    (hmap : map lib = none) :
    handleReexportedLibs map fuel (lib :: libs) main ext =
      handleReexportedLibs map fuel libs main (ext ++ [lib]) := by
  simp only [handleReexportedLibs, hmap]

/-- On the two-descriptor mutual re-export cycle, the walk exceeds every
recursion-depth bound: it never terminates. -/
theorem cycle_none :
    ∀ (fuel : Nat) (main : TextDylib) (ext : List String),
      handleReexportedLibs
        (buildMap [⟨"a", ["ea"], [], ["b"]⟩, ⟨"b", ["eb"], [], ["a"]⟩])
        fuel ["a"] main ext = none ∧
      handleReexportedLibs
        (buildMap [⟨"a", ["ea"], [], ["b"]⟩, ⟨"b", ["eb"], [], ["a"]⟩])
        fuel ["b"] main ext = none := by
  have ha : buildMap [⟨"a", ["ea"], [], ["b"]⟩, ⟨"b", ["eb"], [], ["a"]⟩] "a"
      = some ⟨"a", ["ea"], [], ["b"]⟩ := by rfl
  have hb : buildMap [⟨"a", ["ea"], [], ["b"]⟩, ⟨"b", ["eb"], [], ["a"]⟩] "b"
      = some ⟨"b", ["eb"], [], ["a"]⟩ := by rfl
  intro fuel
  induction fuel with
  | zero =>
    intro main ext
    exact ⟨handle_cons_some_zero _ _ _ _ _ _ ha, handle_cons_some_zero _ _ _ _ _ _ hb⟩
  | succ n IH =>
    intro main ext
    constructor
    · rw [handle_cons_some _ _ _ _ _ _ _ ha]
      rw [show (⟨"a", ["ea"], [], ["b"]⟩ : TextDylib).reexported_libs = ["b"] from rfl]
      rw [(IH _ _).2]
    · rw [handle_cons_some _ _ _ _ _ _ _ hb]
      rw [show (⟨"b", ["eb"], [], ["a"]⟩ : TextDylib).reexported_libs = ["a"] from rfl]
      rw [(IH _ _).1]

/-- A chain rooted in the re-export list of a resolved member of `L` is a
chain from `L`. -/
theorem reachable_through (map : String → Option TextDylib) :
    ∀ (L : List String) (lib : String) (c : TextDylib) (t : String),
      lib ∈ L → map lib = some c → Reachable map c.reexported_libs t →
      Reachable map L t := by
  intro L lib c t hmem hc h
  have hR : Reachable map L lib := .head hmem (by simp [hc])
  generalize hL : c.reexported_libs = L0 at h
  induction h with
  | head hm hres => exact .step hR hc (by rw [hL]; exact hm) hres
  | step hr hc' hm hres IH => exact .step IH hc' hm hres

/-- The walk's external-library output is exactly the spec-side
depth-first first-seen sequence of unresolved names, appended to the
incoming accumulator. -/
theorem handle_externals_spec (map : String → Option TextDylib) :
    ∀ (fuel : Nat) (libs : List String) (main : TextDylib) (ext : List String)
      (main' : TextDylib) (ext' : List String),
      handleReexportedLibs map fuel libs main ext = some (main', ext') →
      ∃ x, externalsSpec map fuel libs = some x ∧ ext' = ext ++ x := by
  intro fuel libs main ext
  induction fuel, libs, main, ext using handleReexportedLibs.induct map with
  | case1 fuel main ext =>
    intro main' ext' h
    simp only [handleReexportedLibs, Option.some.injEq, Prod.mk.injEq] at h
    obtain ⟨h1, h2⟩ := h
    subst h2
    exact ⟨[], by simp [externalsSpec], by simp⟩
  | case2 lib libs main ext child hmap =>
    intro main' ext' h
    simp only [handleReexportedLibs, hmap] at h
    exact Option.noConfusion h
  | case3 lib libs main ext child hmap n mid emid hchild IHchild IHsib =>
    intro main' ext' h
    simp only [handleReexportedLibs, hmap, hchild] at h
    obtain ⟨x1, hx1, he1⟩ := IHchild mid emid hchild
    obtain ⟨x2, hx2, he2⟩ := IHsib main' ext' h
    refine ⟨x1 ++ x2, ?_, ?_⟩
    · simp only [externalsSpec, hmap, hx1, hx2]
    · rw [he2, he1, List.append_assoc]
  | case4 lib libs main ext child hmap n hchild IHchild =>
    intro main' ext' h
    simp only [handleReexportedLibs, hmap, hchild] at h
    exact Option.noConfusion h
  | case5 fuel lib libs main ext hmap IH =>
    intro main' ext' h
    simp only [handleReexportedLibs, hmap] at h
    obtain ⟨x, hx, he⟩ := IH main' ext' h
    refine ⟨lib :: x, ?_, ?_⟩
    · simp only [externalsSpec, hmap, hx]
    · rw [he]
      simp

/-- Every unresolved name the walk encounters — at top level or inside
the re-export list of any resolved library it reaches — is recorded in
the external-library output. -/
theorem handle_encountered_mem (map : String → Option TextDylib) :
    ∀ (fuel : Nat) (libs : List String) (main : TextDylib) (ext : List String)
      (main' : TextDylib) (ext' : List String),
      handleReexportedLibs map fuel libs main ext = some (main', ext') →
      ∀ l, map l = none → Encountered map libs l → l ∈ ext' := by
  intro fuel libs main ext
  induction fuel, libs, main, ext using handleReexportedLibs.induct map with
  | case1 fuel main ext =>
    intro main' ext' h l hnone henc
    rcases henc with h1 | ⟨t, c, hr, -, -⟩
    · exact absurd h1 (List.not_mem_nil _)
    · exact absurd hr (reachable_nil map t)
  | case2 lib libs main ext child hmap =>
    intro main' ext' h
    simp only [handleReexportedLibs, hmap] at h
    exact Option.noConfusion h
  | case3 lib libs main ext child hmap n mid emid hchild IHchild IHsib =>
    intro main' ext' h l hnone henc
    simp only [handleReexportedLibs, hmap, hchild] at h
    obtain ⟨-, -, -, -, ⟨c2, hx2⟩⟩ := handle_extends map _ _ _ _ _ _ h
    rcases henc with h1 | ⟨t, c, hr, hc, hm⟩
    · rcases List.mem_cons.mp h1 with h2 | h2
      · subst h2
        rw [hmap] at hnone
        exact Option.noConfusion hnone
      · exact IHsib main' ext' h l hnone (Or.inl h2)
    · obtain ⟨l0, hl0, hres0, hr1⟩ := reachable_origin map _ t hr
      rcases List.mem_cons.mp hl0 with h2 | h2
      · subst h2
        rcases reachable_singleton_elim map _ t hr1 l0 child rfl hmap with h3 | h3
        · subst h3
          rw [hmap] at hc
          injection hc with hc
          subst hc
          have hl_mid := IHchild mid emid hchild l hnone (Or.inl hm)
          rw [hx2]
          exact List.mem_append.mpr (Or.inl hl_mid)
        · have hl_mid := IHchild mid emid hchild l hnone (Or.inr ⟨t, c, h3, hc, hm⟩)
          rw [hx2]
          exact List.mem_append.mpr (Or.inl hl_mid)
      · have hr2 := reachable_mono map [l0] libs t (by simpa using h2) hr1
        exact IHsib main' ext' h l hnone (Or.inr ⟨t, c, hr2, hc, hm⟩)
  | case4 lib libs main ext child hmap n hchild IHchild =>
    intro main' ext' h
    simp only [handleReexportedLibs, hmap, hchild] at h
    exact Option.noConfusion h
  | case5 fuel lib libs main ext hmap IH =>
    intro main' ext' h l hnone henc
    simp only [handleReexportedLibs, hmap] at h
    rcases henc with h1 | ⟨t, c, hr, hc, hm⟩
    · rcases List.mem_cons.mp h1 with h2 | h2
      · subst h2
        obtain ⟨-, -, -, -, ⟨c1, hx1⟩⟩ := handle_extends map _ _ _ _ _ _ h
        rw [hx1]
        simp
      · exact IH main' ext' h l hnone (Or.inl h2)
    · obtain ⟨l0, hl0, hres0, hr1⟩ := reachable_origin map _ t hr
      rcases List.mem_cons.mp hl0 with h2 | h2
      · subst h2
        exact absurd hmap hres0
      · have hr2 := reachable_mono map [l0] libs t (by simpa using h2) hr1
        exact IH main' ext' h l hnone (Or.inr ⟨t, c, hr2, hc, hm⟩)

/-- Every symbol the walk accumulates comes from the initial state or
from a resolved reachable library; unresolved names contribute none. -/
theorem handle_exports_sources (map : String → Option TextDylib) :
    ∀ (fuel : Nat) (libs : List String) (main : TextDylib) (ext : List String)
      (main' : TextDylib) (ext' : List String),
      handleReexportedLibs map fuel libs main ext = some (main', ext') →
      (∀ e ∈ main'.exports, e ∈ main.exports ∨ ∃ t c,
          Reachable map libs t ∧ map t = some c ∧ e ∈ c.exports) ∧
      (∀ w ∈ main'.weak_exports, w ∈ main.weak_exports ∨ ∃ t c,
          Reachable map libs t ∧ map t = some c ∧ w ∈ c.weak_exports) := by
  intro fuel libs main ext
  induction fuel, libs, main, ext using handleReexportedLibs.induct map with
  | case1 fuel main ext =>
    intro main' ext' h
    simp only [handleReexportedLibs, Option.some.injEq, Prod.mk.injEq] at h
    obtain ⟨h1, h2⟩ := h
    subst h1
    exact ⟨fun e he => Or.inl he, fun w hw => Or.inl hw⟩
  | case2 lib libs main ext child hmap =>
    intro main' ext' h
    simp only [handleReexportedLibs, hmap] at h
    exact Option.noConfusion h
  | case3 lib libs main ext child hmap n mid emid hchild IHchild IHsib =>
    intro main' ext' h
    simp only [handleReexportedLibs, hmap, hchild] at h
    have hlib : Reachable map (lib :: libs) lib :=
      .head (List.mem_cons_self _ _) (by simp [hmap])
    constructor
    · intro e he
      rcases ((IHsib main' ext' h).1) e he with h1 | ⟨t, c, hr, hc, hec⟩
      · rcases ((IHchild mid emid hchild).1) e h1 with h2 | ⟨t, c, hr, hc, hec⟩
        · rcases List.mem_append.mp h2 with h3 | h3
          · exact Or.inl h3
          · exact Or.inr ⟨lib, child, hlib, hmap, h3⟩
        · exact Or.inr ⟨t, c,
            reachable_through map (lib :: libs) lib child t
              (List.mem_cons_self _ _) hmap hr, hc, hec⟩
      · exact Or.inr ⟨t, c,
          reachable_mono map libs (lib :: libs) t
            (fun x hx => List.mem_cons_of_mem _ hx) hr, hc, hec⟩
    · intro w hw
      rcases ((IHsib main' ext' h).2) w hw with h1 | ⟨t, c, hr, hc, hec⟩
      · rcases ((IHchild mid emid hchild).2) w h1 with h2 | ⟨t, c, hr, hc, hec⟩
        · rcases List.mem_append.mp h2 with h3 | h3
          · exact Or.inl h3
          · exact Or.inr ⟨lib, child, hlib, hmap, h3⟩
        · exact Or.inr ⟨t, c,
            reachable_through map (lib :: libs) lib child t
              (List.mem_cons_self _ _) hmap hr, hc, hec⟩
      · exact Or.inr ⟨t, c,
          reachable_mono map libs (lib :: libs) t
            (fun x hx => List.mem_cons_of_mem _ hx) hr, hc, hec⟩
  | case4 lib libs main ext child hmap n hchild IHchild =>
    intro main' ext' h
    simp only [handleReexportedLibs, hmap, hchild] at h
    exact Option.noConfusion h
  | case5 fuel lib libs main ext hmap IH =>
    intro main' ext' h
    simp only [handleReexportedLibs, hmap] at h
    constructor
    · intro e he
      rcases (IH main' ext' h).1 e he with h1 | ⟨t, c, hr, hc, hec⟩
      · exact Or.inl h1
      · exact Or.inr ⟨t, c,
          reachable_mono map libs (lib :: libs) t
            (fun x hx => List.mem_cons_of_mem _ hx) hr, hc, hec⟩
    · intro w hw
      rcases (IH main' ext' h).2 w hw with h1 | ⟨t, c, hr, hc, hec⟩
      · exact Or.inl h1
      · exact Or.inr ⟨t, c,
          reachable_mono map libs (lib :: libs) t
            (fun x hx => List.mem_cons_of_mem _ hx) hr, hc, hec⟩

/-! ## Small list-level helpers -/

/-- A left fold that only appends to the `exports` field is one big append
of the per-element contributions. -/
theorem foldl_exports_append (f : String → List String) :
    ∀ (l : List String) (tbd : TextDylib),
      l.foldl (fun t s => { t with exports := t.exports ++ f s }) tbd =
      { tbd with exports := tbd.exports ++ l.flatMap f } := by
  intro l
  induction l with
  | nil => intro tbd; simp
  | cons a l IH =>
    intro tbd
    simp only [List.foldl_cons, IH, List.flatMap_cons, List.append_assoc]

/-- Binding a singleton-producing function is mapping. -/
theorem bind_single (g : String → String) :
    ∀ l : List String, (l.flatMap fun s => [g s]) = l.map g := by
  intro l
  induction l with
  | nil => simp
  | cons a l IH => simp [IH]

/-- Every member's rank is bounded by the fold of `max` over the list. -/
theorem le_foldr_max (rk : String → Nat) :
    ∀ (l : List String) (x : String), x ∈ l →
      rk x ≤ l.foldr (fun s m => max (rk s) m) 0 := by
  intro l
  induction l with
  | nil => intro x hx; exact absurd hx (List.not_mem_nil _)
  | cons a l IH =>
    intro x hx
    rcases List.mem_cons.mp hx with h | h
    · subst h
      exact Nat.le_max_left _ _
    · exact le_trans (IH x h) (Nat.le_max_right _ _)

/-- Inserting one more descriptor at the end of the lookup-table build
overwrites exactly its own install name. -/
theorem buildMap_append_single (l : List TextDylib) (t : TextDylib) (s : String) :
    buildMap (l ++ [t]) s = if s = t.install_name then some t else buildMap l s := by
  simp [buildMap, List.foldl_append]

/-- Last write wins: a descriptor not shadowed by any later sibling with
the same install name is what the lookup table returns for that name. -/
theorem buildMap_last_wins :
    ∀ (post pre : List TextDylib) (t : TextDylib),
      (∀ u ∈ post, u.install_name ≠ t.install_name) →
      buildMap (pre ++ t :: post) t.install_name = some t := by
  intro post
  induction post using List.reverseRecOn with
  | nil =>
    intro pre t _
    have he : pre ++ t :: ([] : List TextDylib) = pre ++ [t] := by simp
    rw [he, buildMap_append_single]
    simp
  | append_singleton ps u IH =>
    intro pre t h
    have he : pre ++ t :: (ps ++ [u]) = (pre ++ t :: ps) ++ [u] := by simp
    rw [he, buildMap_append_single, if_neg, IH pre t]
    · intro v hv
      exact h v (List.mem_append_left _ hv)
    · exact fun hh => h u (List.mem_append_right _ (List.mem_singleton_self _)) hh.symm

/-! ## Claims -/

/-- Claim C1: if a document's `targets` sequence does not contain the
requested architecture identifier, extraction yields nothing for that
document, and the driver raises no fatal diagnostic because of it (given
the document list is non-empty, the driver's outcome is never `fatal`). -/
theorem to_tbd_skips_unmatched_arch (node : YamlNode) (arch : String)
    (h : contains (get_vector node "targets") arch = false) :
    to_tbd node arch = none ∧
    ∀ (name contents : String) (nodes : List YamlNode) (fuel : Nat) (msg : String),
      parseTbd name contents (Except.ok (node :: nodes)) arch fuel ≠
        ParseOutcome.fatal msg := by
  constructor
  · simp [to_tbd, h]
  · intro name contents nodes fuel msg hcontra
    simp only [parseTbd, List.isEmpty_cons] at hcontra
    rcases hsq : squash (extractDylibs (node :: nodes) arch) fuel with _ | t <;>
      rw [hsq] at hcontra <;> exact ParseOutcome.noConfusion hcontra

/-- Witness for C1 at a document with no `targets` key. -/
theorem to_tbd_skips_unmatched_arch_witness :
    contains (get_vector (YamlNode.map []) "targets") "arm64-macos" = false ∧
    to_tbd (YamlNode.map []) "arm64-macos" = none :=
  ⟨rfl, (to_tbd_skips_unmatched_arch (YamlNode.map []) "arm64-macos" rfl).1⟩

/-- Claim C2: for a member of `exports`/`reexports` whose `targets`
contains the architecture, each name `s` in `objc-classes` contributes
exactly the two export names `_OBJC_CLASS_$_s` and `_OBJC_METACLASS_$_s`,
in that order, placed after the member's direct `symbols` (the
`weak-symbols` go to `weak_exports`); `objc-eh-types` and `objc-ivars`
derivations follow. -/
theorem processMember_objc_classes_order (arch : String) (tbd : TextDylib)
    (mem : YamlNode) (h : contains (get_vector mem "targets") arch = true) :
    (processMember arch tbd mem).exports =
      tbd.exports ++ get_string_vector mem "symbols"
        ++ ((get_string_vector mem "objc-classes").flatMap fun s =>
              ["_OBJC_CLASS_$_" ++ s, "_OBJC_METACLASS_$_" ++ s])
        ++ ((get_string_vector mem "objc-eh-types").map fun s => "_OBJC_EHTYPE_$_" ++ s)
        ++ ((get_string_vector mem "objc-ivars").map fun s => "_OBJC_IVAR_$_" ++ s) ∧
    (processMember arch tbd mem).weak_exports =
      tbd.weak_exports ++ get_string_vector mem "weak-symbols" := by
  simp only [processMember, h, if_true]
  rw [foldl_exports_append (fun s => ["_OBJC_CLASS_$_" ++ s, "_OBJC_METACLASS_$_" ++ s]),
      foldl_exports_append (fun s => ["_OBJC_EHTYPE_$_" ++ s]),
      foldl_exports_append (fun s => ["_OBJC_IVAR_$_" ++ s])]
  rw [bind_single (fun s => "_OBJC_EHTYPE_$_" ++ s),
      bind_single (fun s => "_OBJC_IVAR_$_" ++ s)]
  constructor
  · simp [List.append_assoc]
  · rfl

/-- Witness for C2 at a member carrying one symbol and one class. -/
theorem processMember_objc_classes_order_witness :
    (processMember "A" {} (YamlNode.map [("targets", YamlNode.seq [YamlNode.str "A"]),
        ("symbols", YamlNode.seq [YamlNode.str "_s"]),
        ("objc-classes", YamlNode.seq [YamlNode.str "Foo"])])).exports =
      ["_s", "_OBJC_CLASS_$_Foo", "_OBJC_METACLASS_$_Foo"] :=
  (processMember_objc_classes_order "A" {}
    (YamlNode.map [("targets", YamlNode.seq [YamlNode.str "A"]),
      ("symbols", YamlNode.seq [YamlNode.str "_s"]),
      ("objc-classes", YamlNode.seq [YamlNode.str "Foo"])]) rfl).1

/-- Claim C3: when the same-file re-export graph is acyclic (witnessed by a
rank function), the merge terminates and every export of every library
reachable from the primary through resolved same-file re-export chains
lands in the merged exports, while the resolved library names are absent
from the merged `reexported_libs`. -/
theorem squash_inlines_reachable_exports (main : TextDylib) (rest : List TextDylib)
    (rk : String → Nat) (hrk : RankedBelow (buildMap rest) rk) :
    ∃ (fuel : Nat) (r : TextDylib), squash (main :: rest) fuel = some r ∧
      ∀ (t : String) (c : TextDylib),
        Reachable (buildMap rest) main.reexported_libs t →
        buildMap rest t = some c →
        (∀ e ∈ c.exports, e ∈ r.exports) ∧ t ∉ r.reexported_libs := by
  have hbound : ∀ l ∈ main.reexported_libs, buildMap rest l ≠ none →
      rk l < (main.reexported_libs.foldr (fun s m => max (rk s) m) 0) + 1 :=
    fun l hl _ => Nat.lt_succ_of_le (le_foldr_max rk _ l hl)
  obtain ⟨⟨m', e'⟩, hw⟩ := handle_success (buildMap rest) rk hrk _
    main.reexported_libs hbound main []
  refine ⟨(main.reexported_libs.foldr (fun s m => max (rk s) m) 0) + 1,
    { m' with reexported_libs := e' }, by simp [squash, hw], ?_⟩
  intro t c hr hc
  constructor
  · intro e he
    simpa using handle_reachable_exports (buildMap rest) _ _ _ _ _ _ hw t c hr hc e he
  · intro hmem
    rcases handle_ext_mem (buildMap rest) _ _ _ _ _ _ hw t (by simpa using hmem) with h1 | h1
    · exact List.not_mem_nil _ h1
    · rw [h1] at hc
      exact Option.noConfusion hc

/-- Witness for C3 at a primary re-exporting one sibling. -/
theorem squash_inlines_reachable_exports_witness :
    ∃ (fuel : Nat) (r : TextDylib),
      squash [⟨"p", ["s0"], [], ["q"]⟩, ⟨"q", ["s1"], [], []⟩] fuel = some r ∧
      ∀ (t : String) (c : TextDylib),
        Reachable (buildMap [⟨"q", ["s1"], [], []⟩])
          (⟨"p", ["s0"], [], ["q"]⟩ : TextDylib).reexported_libs t →
        buildMap [⟨"q", ["s1"], [], []⟩] t = some c →
        (∀ e ∈ c.exports, e ∈ r.exports) ∧ t ∉ r.reexported_libs :=
  squash_inlines_reachable_exports ⟨"p", ["s0"], [], ["q"]⟩ [⟨"q", ["s1"], [], []⟩]
    (fun _ => 0) (by
      intro s c h t ht _hres
      have hq : buildMap [⟨"q", ["s1"], [], []⟩] s
          = if s = "q" then some ⟨"q", ["s1"], [], []⟩ else none := rfl
      rw [hq] at h
      split at h
      · injection h with h
        subst h
        exact absurd ht (List.not_mem_nil _)
      · exact Option.noConfusion h)

/-- Claim C4: over the whole recursive walk, every encountered name that
does not resolve in the same-file lookup table is recorded unchanged in
the merged `reexported_libs`; the merged `reexported_libs` is exactly the
depth-first first-seen sequence of the unresolved names (so order is
preserved and nothing is recorded twice per encounter), it holds only
unresolved names, every merged export and weak export stems from the
primary or from a resolved reachable library (an unresolved name
contributes no symbols and is not recursed into), and if every name of the
primary's re-export list is unresolved the merge returns the primary
untouched. -/
theorem squash_external_passthrough (main : TextDylib) (rest : List TextDylib)
    (fuel : Nat) (r : TextDylib) (h : squash (main :: rest) fuel = some r) :
    (∃ x, externalsSpec (buildMap rest) fuel main.reexported_libs = some x ∧
      r.reexported_libs = x) ∧
    (∀ l, buildMap rest l = none →
      Encountered (buildMap rest) main.reexported_libs l →
      l ∈ r.reexported_libs) ∧
    (∀ l ∈ r.reexported_libs, buildMap rest l = none) ∧
    (∀ e ∈ r.exports, e ∈ main.exports ∨ ∃ t c,
      Reachable (buildMap rest) main.reexported_libs t ∧
      buildMap rest t = some c ∧ e ∈ c.exports) ∧
    (∀ w ∈ r.weak_exports, w ∈ main.weak_exports ∨ ∃ t c,
      Reachable (buildMap rest) main.reexported_libs t ∧
      buildMap rest t = some c ∧ w ∈ c.weak_exports) ∧
    ((∀ l ∈ main.reexported_libs, buildMap rest l = none) → r = main) := by
  simp only [squash] at h
  rcases hw : handleReexportedLibs (buildMap rest) fuel main.reexported_libs main []
    with _ | ⟨m', e'⟩ <;> rw [hw] at h
  · exact Option.noConfusion h
  · injection h with h
    subst h
    obtain ⟨x, hx, he⟩ := handle_externals_spec _ _ _ _ _ _ _ hw
    refine ⟨⟨x, hx, by simpa using he⟩, ?_, ?_, ?_, ?_, ?_⟩
    · intro l hnone henc
      simpa using handle_encountered_mem _ _ _ _ _ _ _ hw l hnone henc
    · intro l hl
      rcases handle_ext_mem _ _ _ _ _ _ _ hw l (by simpa using hl) with h1 | h1
      · exact absurd h1 (List.not_mem_nil _)
      · exact h1
    · intro e he
      exact (handle_exports_sources _ _ _ _ _ _ _ hw).1 e (by simpa using he)
    · intro w hw2
      exact (handle_exports_sources _ _ _ _ _ _ _ hw).2 w (by simpa using hw2)
    · intro hall
      have h2 := handle_all_unresolved (buildMap rest) main.reexported_libs fuel main [] hall
      rw [h2] at hw
      injection hw with hw
      injection hw with hw1 hw2
      subst hw1
      subst hw2
      simp

/-- Witness for C4 at a primary with one unresolvable re-export. -/
theorem squash_external_passthrough_witness :
    (∃ x, externalsSpec (buildMap []) 0 (["x"] : List String) = some x ∧
      (["x"] : List String) = x) ∧
    (∀ l, buildMap [] l = none →
      Encountered (buildMap []) (["x"] : List String) l →
      l ∈ (["x"] : List String)) ∧
    (∀ l ∈ (["x"] : List String), buildMap [] l = none) ∧
    (∀ e ∈ (["e"] : List String), e ∈ (["e"] : List String) ∨ ∃ t c,
      Reachable (buildMap []) (["x"] : List String) t ∧
      buildMap [] t = some c ∧ e ∈ c.exports) ∧
    (∀ w ∈ (["w"] : List String), w ∈ (["w"] : List String) ∨ ∃ t c,
      Reachable (buildMap []) (["x"] : List String) t ∧
      buildMap [] t = some c ∧ w ∈ c.weak_exports) ∧
    ((∀ l ∈ (["x"] : List String), buildMap [] l = none) →
      (⟨"p", ["e"], ["w"], ["x"]⟩ : TextDylib) = ⟨"p", ["e"], ["w"], ["x"]⟩) :=
  squash_external_passthrough ⟨"p", ["e"], ["w"], ["x"]⟩ [] 0
    ⟨"p", ["e"], ["w"], ["x"]⟩ (by
    have h1 : handleReexportedLibs (buildMap []) 0 ["x"] ⟨"p", ["e"], ["w"], ["x"]⟩ []
        = some (⟨"p", ["e"], ["w"], ["x"]⟩, ["x"]) := by
      rw [handle_cons_none _ _ _ _ _ _ rfl]
      exact handle_nil _ _ _ _
    simp [squash, h1])

/-- Counterexample to claim C5 as stated: a file that parses successfully
into one document whose `targets` does not contain the requested
architecture makes the driver pass the empty list to the merge step, whose
unguarded first-element access is out of bounds (modelled by `stuck`). -/
theorem parse_empty_merge_counterexample :
    extractDylibs [YamlNode.map [("targets", YamlNode.seq [YamlNode.str "x86_64-macos"])]]
      "arm64-macos" = [] ∧
    parseTbd "f" "" (Except.ok
        [YamlNode.map [("targets", YamlNode.seq [YamlNode.str "x86_64-macos"])]])
      "arm64-macos" 9 = ParseOutcome.stuck := by
  constructor <;> rfl

/-- Claim C5 (amended): the list the driver passes to merge is non-empty
exactly when some document yields a descriptor for the requested
architecture; on the empty descriptor list the merge's first-element
access is out of bounds (modelled by `none`). -/
theorem extract_nonempty_of_some_match (nodes : List YamlNode) (arch : String)
    (h : ∃ node ∈ nodes, to_tbd node arch ≠ none) :
    (∃ m rest, extractDylibs nodes arch = m :: rest) ∧
    ∀ fuel, squash ([] : List TextDylib) fuel = none := by
  constructor
  · obtain ⟨node, hn, hne⟩ := h
    have hne2 : extractDylibs nodes arch ≠ [] := by
      simp only [extractDylibs]
      intro hcontra
      rw [List.filterMap_eq_nil_iff] at hcontra
      exact hne (hcontra node hn)
    rcases hex : extractDylibs nodes arch with _ | ⟨m, rest⟩
    · exact absurd hex hne2
    · exact ⟨m, rest, rfl⟩
  · intro fuel
    rfl

/-- Witness for C5 (amended) at a file with one matching document. -/
theorem extract_nonempty_of_some_match_witness :
    (∃ m rest, extractDylibs
        [YamlNode.map [("targets", YamlNode.seq [YamlNode.str "arm64-macos"])]]
        "arm64-macos" = m :: rest) ∧
    ∀ fuel, squash ([] : List TextDylib) fuel = none :=
  extract_nonempty_of_some_match
    [YamlNode.map [("targets", YamlNode.seq [YamlNode.str "arm64-macos"])]]
    "arm64-macos"
    ⟨YamlNode.map [("targets", YamlNode.seq [YamlNode.str "arm64-macos"])],
      List.mem_singleton_self _, by
        rw [show to_tbd (YamlNode.map [("targets", YamlNode.seq [YamlNode.str "arm64-macos"])])
            "arm64-macos" = some {} from rfl]
        simp⟩

/-- Claim C6: on structural YAML parse failure at byte offset `pos`, the
driver reports a fatal diagnostic whose line number is one plus the count
of newline bytes strictly before `pos`, of the form
`name:line: YAML parse error: msg`; in particular three preceding
newlines report line 4. -/
theorem parse_error_line_mapping (name contents arch : String) (fuel : Nat)
    (err : YamlError) :
    parseTbd name contents (Except.error err) arch fuel =
      ParseOutcome.fatal (name ++ ":" ++ toString (countNewlines contents err.pos + 1)
        ++ ": YAML parse error: " ++ err.msg) ∧
    (countNewlines contents err.pos = 3 →
      parseTbd name contents (Except.error err) arch fuel =
        ParseOutcome.fatal (name ++ ":" ++ "4" ++ ": YAML parse error: " ++ err.msg)) := by
  constructor
  · rfl
  · intro h3
    have h1 : parseTbd name contents (Except.error err) arch fuel =
        ParseOutcome.fatal (name ++ ":" ++ toString (countNewlines contents err.pos + 1)
          ++ ": YAML parse error: " ++ err.msg) := rfl
    rw [h1, h3]
    rfl

/-- Witness for C6: an error offset after the third newline reports
line 4. -/
theorem parse_error_line_mapping_witness :
    parseTbd "f" "a\nb\nc\nd" (Except.error ⟨7, "m"⟩) "arm64-macos" 0 =
      ParseOutcome.fatal "f:4: YAML parse error: m" :=
  (parse_error_line_mapping "f" "a\nb\nc\nd" "arm64-macos" 0 ⟨7, "m"⟩).2 rfl

/-- Claim C7: a successful parse with zero documents raises the fatal
diagnostic `name: malformed TBD file`, and the only fatal outcomes of the
driver are that one and the YAML-parse-error one. -/
theorem parse_zero_docs_fatal (name contents arch : String) (fuel : Nat) :
    parseTbd name contents (Except.ok []) arch fuel =
      ParseOutcome.fatal (name ++ ": malformed TBD file") ∧
    ∀ (res : Except YamlError (List YamlNode)) (msg : String),
      parseTbd name contents res arch fuel = ParseOutcome.fatal msg →
      (∃ e, res = Except.error e) ∨ res = Except.ok [] := by
  constructor
  · rfl
  · intro res msg h
    cases res with
    | error e => exact Or.inl ⟨e, rfl⟩
    | ok nodes =>
      cases nodes with
      | nil => exact Or.inr rfl
      | cons n ns =>
        exfalso
        simp only [parseTbd, List.isEmpty_cons, Bool.false_eq_true, if_false] at h
        rcases hsq : squash (extractDylibs (n :: ns) arch) fuel with _ | t <;>
          rw [hsq] at h <;> exact ParseOutcome.noConfusion h

/-- Witness for C7 applying the only-two-fatal-outcomes direction to the
zero-document input. -/
theorem parse_zero_docs_fatal_witness :
    (∃ e, (Except.ok [] : Except YamlError (List YamlNode)) = Except.error e) ∨
      (Except.ok [] : Except YamlError (List YamlNode)) = Except.ok ([] : List YamlNode) :=
  (parse_zero_docs_fatal "f" "" "arm64-macos" 0).2 (Except.ok [])
    ("f" ++ ": malformed TBD file") rfl

/-- Claim C8: the re-export walk terminates (some recursion-depth bound
suffices) whenever the same-file re-export graph is acyclic (witnessed by
a rank function), and on a descriptor list in which two descriptors
re-export each other it exceeds every recursion-depth bound — there is no
visited-set guard. -/
theorem walk_acyclic_terminates_cycle_diverges :
    (∀ (map : String → Option TextDylib) (rk : String → Nat), RankedBelow map rk →
      ∀ (libs : List String) (main : TextDylib) (ext : List String),
        ∃ (fuel : Nat) (out : TextDylib × List String),
          handleReexportedLibs map fuel libs main ext = some out) ∧
    (∀ (fuel : Nat) (main : TextDylib) (ext : List String),
      handleReexportedLibs
        (buildMap [⟨"a", ["ea"], [], ["b"]⟩, ⟨"b", ["eb"], [], ["a"]⟩])
        fuel ["a"] main ext = none) := by
  constructor
  · intro map rk hrk libs main ext
    exact ⟨(libs.foldr (fun s m => max (rk s) m) 0) + 1,
      handle_success map rk hrk _ libs
        (fun l hl _ => Nat.lt_succ_of_le (le_foldr_max rk libs l hl)) main ext⟩
  · intro fuel main ext
    exact (cycle_none fuel main ext).1

/-- Witness for C8's termination half at the empty lookup table. -/
theorem walk_acyclic_terminates_cycle_diverges_witness :
    ∃ (fuel : Nat) (out : TextDylib × List String),
      handleReexportedLibs (buildMap []) fuel ["x"] {} [] = some out :=
  walk_acyclic_terminates_cycle_diverges.1 (buildMap []) (fun _ => 0)
    (fun _s _c h => Option.noConfusion h) ["x"] {} []

/-- Claim C9: the extraction-plus-merge pipeline is a pure function — two
runs on the same parsed file and architecture agree — and the only
input-dependent ambiguity is last-write-wins on duplicate install names in
the merge's lookup table. -/
theorem pipeline_deterministic (nodes : List YamlNode) (arch : String) (fuel : Nat) :
    runPipeline nodes arch fuel = runPipeline nodes arch fuel ∧
    ∀ (pre post : List TextDylib) (t : TextDylib),
      (∀ u ∈ post, u.install_name ≠ t.install_name) →
      buildMap (pre ++ t :: post) t.install_name = some t :=
  ⟨rfl, fun pre post t h => buildMap_last_wins post pre t h⟩

/-- Witness for C9's last-write-wins half at a single descriptor. -/
theorem pipeline_deterministic_witness :
    buildMap [⟨"n", [], [], []⟩] "n" = some ⟨"n", [], [], []⟩ :=
  (pipeline_deterministic [] "a" 0).2 [] [] ⟨"n", [], [], []⟩
    (fun _u hu => absurd hu (List.not_mem_nil _))

/-- Claim C10: the merged descriptor keeps the primary's install name, and
the primary's own `exports` and `weak_exports` are unchanged initial
segments of the merged ones — the merge only appends symbols (and replaces
`reexported_libs`). -/
theorem squash_frame (main : TextDylib) (rest : List TextDylib) (fuel : Nat)
    (r : TextDylib) (h : squash (main :: rest) fuel = some r) :
    r.install_name = main.install_name ∧
    (∃ a, r.exports = main.exports ++ a) ∧
    (∃ b, r.weak_exports = main.weak_exports ++ b) := by
  simp only [squash] at h
  rcases hw : handleReexportedLibs (buildMap rest) fuel main.reexported_libs main []
    with _ | ⟨m', e'⟩ <;> rw [hw] at h
  · exact Option.noConfusion h
  · injection h with h
    subst h
    obtain ⟨i, -, ⟨a, ea⟩, ⟨b, wb⟩, -⟩ := handle_extends _ _ _ _ _ _ _ hw
    exact ⟨i, ⟨a, ea⟩, ⟨b, wb⟩⟩

/-- Witness for C10 at a singleton descriptor list. -/
theorem squash_frame_witness :
    ("n" : String) = "n" ∧
    (∃ a, ["e"] = ["e"] ++ a) ∧
    (∃ b, ["w"] = ["w"] ++ b) :=
  squash_frame ⟨"n", ["e"], ["w"], []⟩ [] 0 ⟨"n", ["e"], ["w"], []⟩ (by
    have h1 : handleReexportedLibs (buildMap []) 0 []
        (⟨"n", ["e"], ["w"], []⟩ : TextDylib) []
        = some (⟨"n", ["e"], ["w"], []⟩, []) := handle_nil _ _ _ _
    simp [squash, h1])

end Tapi
